import Mathlib

/-!
Verification of the name-resolution cache-and-batch engine
(`sdks/agent-sdk/src/utils/nameResolver.ts`).

The TypeScript module is embedded shallowly:

* The HTTP layer (`fetch` inside `fetchFromWeb3Bio`) is abstracted by an
  oracle `Oracle : Req → Option (List Web3BioResponse)`.  The source builds
  a URL from the request with `encodeURIComponent` (injective, and the
  single-item path `/ns/{...}` can never collide with the batch path
  `/ns/batch/{...}` because `/` is percent-escaped), so requests are
  modelled structurally.  An oracle answer `none` covers the three failure
  modes the source collapses to `null` in `fetchFromWeb3Bio` (lines 87-96):
  non-success HTTP status, transport failure (rejected promise), and a
  response body that fails to parse.  The API key only influences a request
  header, which the oracle abstracts away.
* Every function that in the source touches the module-level cache takes a
  `Cache` argument and returns the updated cache; functions additionally
  return the list of issued requests so that "number of upstream calls" is
  a statement about a value.
* The cache (the external dependency `QuickLRU`, not part of the sources)
  is modelled from the spec as a key→value map without eviction: the claims
  under consideration exclude TTL expiry and LRU eviction, and the map
  operations match the spec contract `get`/`set`/`delete`/`clear` of §4.2.
* JavaScript `trim`/`toLowerCase` are embedded per-character
  (`Char.toLower` handles the ASCII range, which covers the identifier
  alphabets appearing in the module).
-/

namespace NameResolver

/-- Embedding of JavaScript `String.prototype.trim`: drop whitespace from
both ends of the character list. -/
def trimmed (s : String) : String :=
  ⟨((s.data.dropWhile Char.isWhitespace).reverse.dropWhile Char.isWhitespace).reverse⟩

/-- Embedding of JavaScript `String.prototype.toLowerCase`: lowercase every
character (`Char.toLower` lowercases the ASCII range). -/
def lower (s : String) : String :=
  ⟨s.data.map Char.toLower⟩

/-- `input.trim().toLowerCase()` — the normalization applied at lines 241,
307 and 404 of the source. -/
def normalize (s : String) : String :=
  lower (trimmed s)

/-- One character of the regex class `[a-fA-F0-9]`. -/
def isHexDigit (c : Char) : Bool :=
  (('0' ≤ c && c ≤ '9') || ('a' ≤ c && c ≤ 'f')) || ('A' ≤ c && c ≤ 'F')

/-- `isEthereumAddress` (line 176): the regex test `^0x[a-fA-F0-9]{40}$` —
42 characters, the prefix `0x`, then 40 hex digits. -/
def isEthereumAddress (s : String) : Bool :=
  (s.data.length == 42 && s.data.take 2 == ['0', 'x'])
    && (s.data.drop 2).all isHexDigit

/-- JavaScript `String.prototype.endsWith`. -/
def jsEndsWith (s pat : String) : Bool :=
  pat.data.isSuffixOf s.data

/-- `isEnsName` (line 183): ends with `.eth` but not with `.base.eth`. -/
def isEnsName (input : String) : Bool :=
  jsEndsWith input ".eth" && !jsEndsWith input ".base.eth"

/-- `isBaseName` (line 190): ends with `.base.eth`. -/
def isBaseName (input : String) : Bool :=
  jsEndsWith input ".base.eth"

/-- The `platform` field of `NameResolutionResult` (line 8). -/
inductive Platform where
  | ens
  | basenames
  | ethereum
deriving DecidableEq, Repr

/-- `NameResolutionResult` (lines 6-10). -/
structure NameResolutionResult where
  address : Option String
  platform : Option Platform
  displayName : Option String
deriving DecidableEq, Repr

/-- The all-`null` "confirmed unresolved" record, used at lines 119-123,
148-152, 161-166, 280-284 and 338-342. -/
def unresolvedResult : NameResolutionResult :=
  ⟨none, none, none⟩

/-- The record built for a raw address input (lines 254-258 and 326-330). -/
def addrResult (a : String) : NameResolutionResult :=
  ⟨some a, some Platform.ethereum, none⟩

/-- `Web3BioResponse` (lines 63-68): all fields optional. -/
structure Web3BioResponse where
  address : Option String := none
  identity : Option String := none
  platform : Option String := none
  displayName : Option String := none
deriving DecidableEq, Repr

/-- A request issued through `fetchFromWeb3Bio`, modelled structurally
(see the header comment). -/
inductive Req where
  | single (name : String)
  | batch (names : List String)
deriving DecidableEq, Repr

/-- The upstream provider: `none` is any of the failure modes collapsed to
`null` by `fetchFromWeb3Bio`. -/
abbrev Oracle := Req → Option (List Web3BioResponse)

/-- Association-list map with JavaScript `Map`/`QuickLRU` get-set
semantics: `mapSet` shadows older bindings, `mapGet` sees the newest. -/
abbrev Cache := List (String × NameResolutionResult)

/-- Lookup of the most recently set binding for a key. -/
def mapGet (m : Cache) (k : String) : Option NameResolutionResult :=
  (m.find? (fun p => p.1 == k)).map (fun p => p.2)

/-- Set a binding (newer bindings shadow older ones). -/
def mapSet (m : Cache) (k : String) (v : NameResolutionResult) : Cache :=
  (k, v) :: m

/-- `NameResolverConfig` (lines 12-17): the partial configuration accepted
by `configureNameResolver`; an absent field leaves the current value. -/
structure NameResolverConfig where
  web3BioApiKey : Option String := none
  batchSize : Option Nat := none
  cacheMaxSize : Option Nat := none
  cacheTTL : Option Nat := none

/-- `Required<NameResolverConfig>` — the complete, process-wide
configuration record. -/
structure ResolverConfig where
  web3BioApiKey : String
  batchSize : Nat
  cacheMaxSize : Nat
  cacheTTL : Nat
deriving DecidableEq, Repr

/-- `DEFAULT_CONFIG` (lines 20-25) with an absent `WEB3BIO_API_KEY`
environment variable. -/
def DEFAULT_CONFIG : ResolverConfig :=
  ⟨"", 30, 1000, 15 * 60 * 1000⟩

/-- The module-level mutable state: the configuration (line 28) and the
resolution cache (lines 31-34). -/
structure ResolverState where
  config : ResolverConfig
  cache : Cache

/-- The spread `{ ...resolverConfig, ...config }` of line 42: a supplied
field overrides, an absent field keeps the current value. -/
def mergeConfig (cur : ResolverConfig) (config : NameResolverConfig) :
    ResolverConfig :=
  { web3BioApiKey := config.web3BioApiKey.getD cur.web3BioApiKey
    batchSize := config.batchSize.getD cur.batchSize
    cacheMaxSize := config.cacheMaxSize.getD cur.cacheMaxSize
    cacheTTL := config.cacheTTL.getD cur.cacheTTL }

/-- `configureNameResolver` (lines 41-51): spread the update over the
current configuration and recreate the cache (empty) exactly when a
cache-related field is supplied. -/
def configureNameResolver (st : ResolverState) (config : NameResolverConfig) :
    ResolverState :=
  if config.cacheMaxSize.isSome || config.cacheTTL.isSome then
    ⟨mergeConfig st.config config, []⟩
  else
    ⟨mergeConfig st.config config, st.cache⟩

/-- `clearNameResolutionCache` (line 384). -/
def clearNameResolutionCache (_cache : Cache) : Cache :=
  []

/-- `evictFromNameResolutionCache` (lines 403-406): returns whether an
entry existed, and the cache without it. -/
def evictFromNameResolutionCache (cache : Cache) (input : String) :
    Bool × Cache :=
  let cacheKey := normalize input
  ((mapGet cache cacheKey).isSome, cache.filter (fun p => p.1 != cacheKey))

/-- The body of `resolveBaseName`/`resolveEnsName` (lines 197-230, the two
are textually identical): one single-item fetch; the address of the first
record is returned when it is present, non-empty and a valid address. -/
def fetchSingleAddress (o : Oracle) (name : String) : Option String × List Req :=
  (match o (Req.single name) with
    | some data =>
      match data.head? with
      | some item =>
        match item.address with
        | some a => if a != "" then (if isEthereumAddress a then some a else none) else none
        | none => none
      | none => none
    | none => none,
  [Req.single name])

/-- `resolveBaseName` (lines 197-211). -/
def resolveBaseName (o : Oracle) (name : String) : Option String × List Req :=
  fetchSingleAddress o name

/-- `resolveEnsName` (lines 216-230). -/
def resolveEnsName (o : Oracle) (name : String) : Option String × List Req :=
  fetchSingleAddress o name

/-- The lookup in the `responseMap` built at lines 129-134: every record
with a truthy `identity` is keyed by `identity.toLowerCase()`, later
records overwriting earlier ones, and then the map is queried. -/
def lookupIdentity (data : List Web3BioResponse) (key : String) :
    Option Web3BioResponse :=
  data.foldl
    (fun acc item =>
      match item.identity with
      | some id => if id != "" && lower id == key then some item else acc
      | none => acc)
    none

/-- The per-name correlation of lines 137-154: find the record for
`name.toLowerCase()`; on a truthy, valid address build the resolved
record, otherwise the unresolved one (`lower name` spelled out stands for
the source's local `cleanName`). -/
def batchEntryFor (data : List Web3BioResponse) (name : String) :
    NameResolutionResult :=
  match lookupIdentity data (lower name) with
  | some response =>
    match response.address with
    | some a =>
      if a != "" && isEthereumAddress a then
        ⟨some a,
          some (if isBaseName (lower name) then Platform.basenames else Platform.ens),
          some (lower name)⟩
      else unresolvedResult
    | none => unresolvedResult
  | none => unresolvedResult

/-- The result a batch call assigns to one requested name: `unresolvedResult`
for every name when the fetch fails (lines 116-126), otherwise the
correlation of lines 137-154. -/
def batchResultFor (o : Oracle) (names : List String) (name : String) :
    NameResolutionResult :=
  match o (Req.batch names) with
  | none => unresolvedResult
  | some data => batchEntryFor data name

/-- `resolveBatchFromWeb3Bio` (lines 102-171): empty input issues no fetch
and returns the empty map; otherwise one batch fetch produces an entry for
every requested name. -/
def resolveBatchFromWeb3Bio (o : Oracle) (names : List String) :
    List (String × NameResolutionResult) × List Req :=
  if names.isEmpty then ([], [])
  else (names.map (fun n => (n, batchResultFor o names n)), [Req.batch names])

/-- The record built at lines 263-267 and 272-276: on a present address,
platform and displayName are filled, otherwise both are `null`. -/
def nameLookupResult (address : Option String) (p : Platform)
    (cleanInput : String) : NameResolutionResult :=
  ⟨address, if address.isSome then some p else none,
    if address.isSome then some cleanInput else none⟩

/-- `resolveName` (lines 238-291); `normalize input` spelled out stands
for the source's local `cleanInput`. -/
def resolveName (o : Oracle) (cache : Cache) (input : String) :
    NameResolutionResult × Cache × List Req :=
  match mapGet cache (normalize input) with
  | some cachedResult => (cachedResult, cache, [])
  | none =>
    if isEthereumAddress (normalize input) then
      (addrResult (normalize input),
        mapSet cache (normalize input) (addrResult (normalize input)), [])
    else if isBaseName (normalize input) then
      (nameLookupResult (resolveBaseName o (normalize input)).1 Platform.basenames
          (normalize input),
        mapSet cache (normalize input)
          (nameLookupResult (resolveBaseName o (normalize input)).1 Platform.basenames
            (normalize input)),
        (resolveBaseName o (normalize input)).2)
    else if isEnsName (normalize input) then
      (nameLookupResult (resolveEnsName o (normalize input)).1 Platform.ens
          (normalize input),
        mapSet cache (normalize input)
          (nameLookupResult (resolveEnsName o (normalize input)).1 Platform.ens
            (normalize input)),
        (resolveEnsName o (normalize input)).2)
    else
      (unresolvedResult, mapSet cache (normalize input) unresolvedResult, [])

/-- Deduplication pass keeping the first occurrence of each element, with
an accumulator of elements already seen. -/
def uniqueFirstAux (seen : List String) : List String → List String
  | [] => []
  | x :: xs =>
    if seen.contains x then uniqueFirstAux seen xs
    else x :: uniqueFirstAux (x :: seen) xs

/-- `[...new Set(l)]`: deduplication preserving first occurrences in
order (line 308). -/
def uniqueFirst (l : List String) : List String :=
  uniqueFirstAux [] l

/-- The loop state of lines 311-313 together with the cache. -/
structure ScanState where
  addresses : List String
  namesToResolve : List String
  resolvedResults : List (String × NameResolutionResult)
  cache : Cache

/-- One iteration of the classification loop of lines 316-346. -/
def scanStep (s : ScanState) (input : String) : ScanState :=
  match mapGet s.cache input with
  | some cachedResult =>
    { s with resolvedResults := mapSet s.resolvedResults input cachedResult }
  | none =>
    if isEthereumAddress input then
      { s with
        resolvedResults := mapSet s.resolvedResults input (addrResult input)
        cache := mapSet s.cache input (addrResult input)
        addresses := s.addresses ++ [input] }
    else if isEnsName input || isBaseName input then
      { s with namesToResolve := s.namesToResolve ++ [input] }
    else
      { s with
        resolvedResults := mapSet s.resolvedResults input unresolvedResult
        cache := mapSet s.cache input unresolvedResult }

/-- The classification loop of lines 307-346 run over the deduplicated
normalized inputs. -/
def scanRun (cache : Cache) (inputs : List String) : ScanState :=
  (uniqueFirst (inputs.map normalize)).foldl scanStep ⟨[], [], [], cache⟩

/-- Chunking worker, structurally recursive on a fuel bound that dominates
the list length (each step consumes at least one element when `0 < bs`). -/
def chunksGo (bs : Nat) : Nat → List α → List (List α)
  | _, [] => []
  | 0, _ :: _ => []
  | Nat.succ fuel, x :: xs =>
    if bs == 0 then []
    else (x :: xs).take bs :: chunksGo bs fuel ((x :: xs).drop bs)

/-- `namesToResolve.slice(i, i + batchSize)` chunking of lines 353-354:
consecutive chunks of size `bs`.  A zero `bs` is mapped to no chunks (the
source would not terminate there; all theorems assume `0 < bs`, the spec
requires `batchSize` positive). -/
def chunks (bs : Nat) (l : List α) : List (List α) :=
  chunksGo bs l.length l

/-- Merging one batch entry into the result map and the cache
(lines 359-362). -/
def mergeStep (acc : List (String × NameResolutionResult) × Cache)
    (p : String × NameResolutionResult) :
    List (String × NameResolutionResult) × Cache :=
  (mapSet acc.1 p.1 p.2, mapSet acc.2 p.1 p.2)

/-- Merging every batch (in order) into the result map and cache
(lines 349-371; the batches are disjoint, so completion order is
irrelevant and a sequential merge is faithful). -/
def mergeRun (s : ScanState)
    (entryLists : List (List (String × NameResolutionResult))) :
    List (String × NameResolutionResult) × Cache :=
  entryLists.foldl (fun acc entries => entries.foldl mergeStep acc)
    (s.resolvedResults, s.cache)

/-- The batch chunks a `resolveNames` run fetches (lines 353-354). -/
def runBatches (cfg : ResolverConfig) (cache : Cache) (inputs : List String) :
    List (List String) :=
  chunks cfg.batchSize (scanRun cache inputs).namesToResolve

/-- The result map and cache after every batch has been merged
(lines 349-371). -/
def runMerged (cfg : ResolverConfig) (o : Oracle) (cache : Cache)
    (inputs : List String) : List (String × NameResolutionResult) × Cache :=
  mergeRun (scanRun cache inputs)
    ((runBatches cfg cache inputs).map (fun b => (resolveBatchFromWeb3Bio o b).1))

/-- `resolveNames` (lines 299-375): empty input short-circuits; otherwise
classify the deduplicated normalized inputs, fetch the queued names in
batches, merge, and read the final map back in original input order (the
`getD` models the non-null assertion of line 374, shown total below). -/
def resolveNames (cfg : ResolverConfig) (o : Oracle) (cache : Cache)
    (inputs : List String) :
    List NameResolutionResult × Cache × List Req :=
  if inputs.isEmpty then ([], cache, [])
  else
    ((inputs.map normalize).map
        (fun i => (mapGet (runMerged cfg o cache inputs).1 i).getD unresolvedResult),
      (runMerged cfg o cache inputs).2,
      ((runBatches cfg cache inputs).map
        (fun b => (resolveBatchFromWeb3Bio o b).2)).flatten)

/-- The names a `resolveNames` run queues for batch resolution: the unique
normalized inputs that are uncached and classify as ENS or Base names. -/
def queuedPred (cache : Cache) (x : String) : Bool :=
  ((mapGet cache x).isNone && !isEthereumAddress x) && (isEnsName x || isBaseName x)

/-- The queued-name list of a `resolveNames` run, described directly. -/
def queuedNames (cache : Cache) (inputs : List String) : List String :=
  (uniqueFirst (inputs.map normalize)).filter (queuedPred cache)

/-- All identifiers requested across a list of upstream calls. -/
def requestedNames (log : List Req) : List String :=
  (log.map (fun r => match r with
    | Req.single n => [n]
    | Req.batch ns => ns)).flatten

/-- The invariant of claim C5: `address` present iff `platform` present. -/
def resOK (v : NameResolutionResult) : Prop :=
  v.address.isSome = v.platform.isSome

/-- The `displayName` contract of claim C6, stated for the value cached or
returned under normalized key `k`: the normalized input exactly when
resolution succeeded through a name lookup, absent otherwise (in
particular absent for raw address inputs). -/
def displayOK (k : String) (v : NameResolutionResult) : Prop :=
  v.displayName = if v.address.isSome && !isEthereumAddress k then some k else none

/-- The amended address contract of claim C7: any present address is a
well-formed `0x`-prefixed 40-hex-digit string. -/
def addrWellFormed (v : NameResolutionResult) : Prop :=
  ∀ a, v.address = some a → isEthereumAddress a = true

/- ### Association-list map lemmas -/

theorem mapGet_nil (k : String) : mapGet [] k = none := rfl

theorem mapGet_set_self (m : Cache) (k : String) (v : NameResolutionResult) :
    mapGet (mapSet m k v) k = some v := by
  unfold mapGet mapSet
  rw [List.find?_cons_of_pos _ (by simp)]
  rfl

theorem mapGet_set_ne (m : Cache) (k k2 : String) (v : NameResolutionResult)
    (h : k2 ≠ k) : mapGet (mapSet m k v) k2 = mapGet m k2 := by
  unfold mapGet mapSet
  rw [List.find?_cons_of_neg _ (by simpa using fun hh => h hh.symm)]

theorem mapGet_append (l1 l2 : Cache) (k : String) :
    mapGet (l1 ++ l2) k = (mapGet l1 k).or (mapGet l2 k) := by
  unfold mapGet
  rw [List.find?_append]
  cases List.find? (fun p => p.1 == k) l1 <;> simp [Option.or]

theorem mapGet_some_mem (l : Cache) (k : String) (v : NameResolutionResult)
    (h : mapGet l k = some v) : (k, v) ∈ l := by
  unfold mapGet at h
  cases hf : List.find? (fun p => p.1 == k) l with
  | none => rw [hf] at h; exact absurd h (by simp)
  | some p =>
    rw [hf] at h
    simp only [Option.map_some', Option.some_inj] at h
    have hp := List.find?_some hf
    have hm := List.mem_of_find?_eq_some hf
    simp only [beq_iff_eq] at hp
    have : p = (k, v) := by
      cases p
      simp_all
    rwa [this] at hm

theorem mapGet_of_nodup_keys (l : Cache) (k : String) (v : NameResolutionResult)
    (hnd : (l.map Prod.fst).Nodup) (hmem : (k, v) ∈ l) : mapGet l k = some v := by
  induction l with
  | nil => simp at hmem
  | cons hd tl ih =>
    simp only [List.map_cons, List.nodup_cons] at hnd
    rcases List.mem_cons.mp hmem with h1 | h1
    · unfold mapGet
      rw [List.find?_cons_of_pos _ (by simp [← h1])]
      simp [← h1]
    · have hk : hd.1 ≠ k := by
        intro he
        exact hnd.1 (he ▸ List.mem_map_of_mem Prod.fst h1)
      unfold mapGet
      rw [List.find?_cons_of_neg _ (by simpa using hk)]
      exact ih hnd.2 h1

theorem mapGet_eq_none_of_not_mem_keys (l : Cache) (k : String)
    (h : k ∉ l.map Prod.fst) : mapGet l k = none := by
  unfold mapGet
  rw [List.find?_eq_none.mpr]
  · rfl
  · intro p hp hbe
    simp only [beq_iff_eq] at hbe
    exact h (hbe ▸ List.mem_map_of_mem Prod.fst hp)

/- ### Lowercasing lemmas -/

theorem charOfNat_toNat_lower (n : Nat) (h1 : 97 ≤ n) (h2 : n ≤ 122) :
    (Char.ofNat n).toNat = n := by
  have hv : n.isValidChar := Or.inl (by omega)
  simp only [Char.ofNat, hv, dif_pos]
  simp [Char.ofNatAux, Char.toNat, UInt32.toNat, UInt32.ofNatCore]

theorem toLower_idem (c : Char) :
    Char.toLower (Char.toLower c) = Char.toLower c := by
  by_cases h : 65 ≤ c.toNat ∧ c.toNat ≤ 90
  · have h1 : Char.toLower c = Char.ofNat (c.toNat + 32) := by
      unfold Char.toLower
      rw [if_pos ⟨h.1, h.2⟩]
    have h2 : (Char.ofNat (c.toNat + 32)).toNat = c.toNat + 32 :=
      charOfNat_toNat_lower _ (by omega) (by omega)
    rw [h1]
    unfold Char.toLower
    rw [h2, if_neg (by omega)]
  · have h1 : Char.toLower c = c := by
      unfold Char.toLower
      rw [if_neg (by omega)]
    rw [h1, h1]

theorem lower_idem (s : String) : lower (lower s) = lower s := by
  unfold lower
  congr 1
  rw [List.map_map]
  exact List.map_congr_left (fun a _ => toLower_idem a)

theorem lower_normalize (s : String) : lower (normalize s) = normalize s := by
  unfold normalize
  exact lower_idem _

/- ### Deduplication lemmas -/

theorem mem_uniqueFirstAux (l : List String) (seen : List String) (y : String) :
    y ∈ uniqueFirstAux seen l ↔ y ∈ l ∧ y ∉ seen := by
  induction l generalizing seen with
  | nil => simp [uniqueFirstAux]
  | cons x xs ih =>
    unfold uniqueFirstAux
    by_cases h : seen.contains x
    · have hx : x ∈ seen := List.mem_of_elem_eq_true h
      rw [if_pos h, ih]
      constructor
      · exact fun ⟨h1, h2⟩ => ⟨List.mem_cons_of_mem _ h1, h2⟩
      · rintro ⟨h1, h2⟩
        rcases List.mem_cons.mp h1 with rfl | h1
        · exact absurd hx h2
        · exact ⟨h1, h2⟩
    · have hx : x ∉ seen := fun hm => h (List.elem_eq_true_of_mem hm)
      rw [if_neg h]
      rw [List.mem_cons, ih]
      constructor
      · rintro (rfl | ⟨h1, h2⟩)
        · exact ⟨List.mem_cons_self _ _, hx⟩
        · refine ⟨List.mem_cons_of_mem _ h1, fun hm => h2 (List.mem_cons_of_mem _ hm)⟩
      · rintro ⟨h1, h2⟩
        rcases List.mem_cons.mp h1 with rfl | h1
        · exact Or.inl rfl
        · by_cases hyx : y = x
          · exact Or.inl hyx
          · refine Or.inr ⟨h1, fun hm => ?_⟩
            rcases List.mem_cons.mp hm with h3 | h3
            · exact hyx h3
            · exact h2 h3

theorem nodup_uniqueFirstAux (l : List String) (seen : List String) :
    (uniqueFirstAux seen l).Nodup := by
  induction l generalizing seen with
  | nil => simp [uniqueFirstAux]
  | cons x xs ih =>
    unfold uniqueFirstAux
    by_cases h : seen.contains x
    · rw [if_pos h]; exact ih seen
    · rw [if_neg h]
      refine List.Nodup.cons ?_ (ih (x :: seen))
      intro hmem
      have := (mem_uniqueFirstAux xs (x :: seen) x).mp hmem
      exact this.2 (List.mem_cons_self x seen)

theorem mem_uniqueFirst (l : List String) (y : String) :
    y ∈ uniqueFirst l ↔ y ∈ l := by
  unfold uniqueFirst
  rw [mem_uniqueFirstAux]
  simp

theorem nodup_uniqueFirst (l : List String) : (uniqueFirst l).Nodup :=
  nodup_uniqueFirstAux l []

/- ### Chunking lemmas -/

theorem chunksGo_flatten {α : Type} (bs : Nat) (hbs : 0 < bs) :
    ∀ fuel (l : List α), l.length ≤ fuel → (chunksGo bs fuel l).flatten = l := by
  intro fuel
  induction fuel with
  | zero =>
    intro l hl
    cases l with
    | nil => rfl
    | cons x xs => simp at hl
  | succ n ih =>
    intro l hl
    cases l with
    | nil => rfl
    | cons x xs =>
      unfold chunksGo
      rw [if_neg (by simp; omega)]
      rw [List.flatten_cons, ih _ (by simp at hl ⊢; omega)]
      exact List.take_append_drop bs (x :: xs)

theorem chunksGo_length {α : Type} (bs : Nat) (hbs : 0 < bs) :
    ∀ fuel (l : List α), l.length ≤ fuel →
      (chunksGo bs fuel l).length = (l.length + bs - 1) / bs := by
  intro fuel
  induction fuel with
  | zero =>
    intro l hl
    cases l with
    | nil =>
      rw [show chunksGo bs 0 ([] : List α) = [] from rfl]
      simp only [List.length_nil, Nat.zero_add]
      exact (Nat.div_eq_of_lt (by omega)).symm
    | cons x xs => simp at hl
  | succ n ih =>
    intro l hl
    cases l with
    | nil =>
      rw [show chunksGo bs (n + 1) ([] : List α) = [] from rfl]
      simp only [List.length_nil, Nat.zero_add]
      exact (Nat.div_eq_of_lt (by omega)).symm
    | cons x xs =>
      unfold chunksGo
      rw [if_neg (by simp; omega)]
      rw [List.length_cons, ih _ (by simp at hl ⊢; omega)]
      simp only [List.length_drop, List.length_cons]
      by_cases hcase : xs.length + 1 ≤ bs
      · have h0 : xs.length + 1 - bs + bs - 1 = bs - 1 := by omega
        have h1 : xs.length + 1 + bs - 1 = xs.length + bs := by omega
        rw [h0, h1, Nat.add_div_right _ hbs,
          Nat.div_eq_of_lt (show bs - 1 < bs by omega),
          Nat.div_eq_of_lt (show xs.length < bs by omega)]
      · have h0 : xs.length + 1 - bs + bs - 1 = xs.length := by omega
        have h1 : xs.length + 1 + bs - 1 = xs.length + bs := by omega
        rw [h0, h1, Nat.add_div_right _ hbs]

theorem chunksGo_mem_length {α : Type} (bs : Nat) :
    ∀ fuel (l : List α) (c : List α), c ∈ chunksGo bs fuel l → c.length ≤ bs := by
  intro fuel
  induction fuel with
  | zero =>
    intro l c hc
    cases l <;> simp [chunksGo] at hc
  | succ n ih =>
    intro l c hc
    cases l with
    | nil => simp [chunksGo] at hc
    | cons x xs =>
      unfold chunksGo at hc
      by_cases hz : bs == 0
      · rw [if_pos hz] at hc; simp at hc
      · rw [if_neg hz] at hc
        rcases List.mem_cons.mp hc with rfl | hc
        · rw [List.length_take]; exact Nat.min_le_left _ _
        · exact ih _ _ hc

theorem chunksGo_mem_ne_nil {α : Type} (bs : Nat) (hbs : 0 < bs) :
    ∀ fuel (l : List α) (c : List α), c ∈ chunksGo bs fuel l → c ≠ [] := by
  intro fuel
  induction fuel with
  | zero =>
    intro l c hc
    cases l <;> simp [chunksGo] at hc
  | succ n ih =>
    intro l c hc
    cases l with
    | nil => simp [chunksGo] at hc
    | cons x xs =>
      unfold chunksGo at hc
      rw [if_neg (by simp; omega)] at hc
      rcases List.mem_cons.mp hc with rfl | hc
      · intro he
        have := congrArg List.length he
        simp at this
        omega
      · exact ih _ _ hc

theorem chunksGo_mem_subset {α : Type} (bs : Nat) :
    ∀ fuel (l : List α) (c : List α), c ∈ chunksGo bs fuel l → ∀ y ∈ c, y ∈ l := by
  intro fuel
  induction fuel with
  | zero =>
    intro l c hc
    cases l <;> simp [chunksGo] at hc
  | succ n ih =>
    intro l c hc y hy
    cases l with
    | nil => simp [chunksGo] at hc
    | cons x xs =>
      unfold chunksGo at hc
      by_cases hz : bs == 0
      · rw [if_pos hz] at hc; simp at hc
      · rw [if_neg hz] at hc
        rcases List.mem_cons.mp hc with rfl | hc
        · exact List.take_subset _ _ hy
        · exact List.drop_subset _ _ (ih _ _ hc y hy)

theorem chunks_flatten {α : Type} (bs : Nat) (hbs : 0 < bs) (l : List α) :
    (chunks bs l).flatten = l :=
  chunksGo_flatten bs hbs l.length l le_rfl

theorem chunks_length {α : Type} (bs : Nat) (hbs : 0 < bs) (l : List α) :
    (chunks bs l).length = (l.length + bs - 1) / bs :=
  chunksGo_length bs hbs l.length l le_rfl

theorem chunks_mem_length {α : Type} (bs : Nat) (l : List α) (c : List α)
    (hc : c ∈ chunks bs l) : c.length ≤ bs :=
  chunksGo_mem_length bs l.length l c hc

theorem chunks_mem_ne_nil {α : Type} (bs : Nat) (hbs : 0 < bs) (l : List α)
    (c : List α) (hc : c ∈ chunks bs l) : c ≠ [] :=
  chunksGo_mem_ne_nil bs hbs l.length l c hc

theorem chunks_mem_subset {α : Type} (bs : Nat) (l : List α) (c : List α)
    (hc : c ∈ chunks bs l) : ∀ y ∈ c, y ∈ l :=
  chunksGo_mem_subset bs l.length l c hc

/- ### Classification-loop lemmas -/

theorem scanStep_names (s : ScanState) (x : String) :
    (scanStep s x).namesToResolve =
      if queuedPred s.cache x = true then s.namesToResolve ++ [x]
      else s.namesToResolve := by
  unfold scanStep
  split
  · rename_i v heq
    rw [if_neg (by simp [queuedPred, heq])]
  · rename_i heq
    split
    · rename_i hEth
      rw [if_neg (by simp [queuedPred, hEth])]
    · rename_i hEth
      split
      · rename_i hName
        rw [if_pos (by simp_all [queuedPred, heq])]
      · rename_i hName
        rw [if_neg (by simp_all [queuedPred, heq])]

theorem scanStep_cache_ne (s : ScanState) (x y : String) (h : y ≠ x) :
    mapGet (scanStep s x).cache y = mapGet s.cache y := by
  unfold scanStep
  split
  · rfl
  · split
    · exact mapGet_set_ne _ _ _ _ h
    · split
      · rfl
      · exact mapGet_set_ne _ _ _ _ h

theorem scanStep_resolved (s : ScanState) (x : String) :
    ∃ w, (scanStep s x).resolvedResults = w ++ s.resolvedResults ∧
      ∀ p ∈ w, p.1 = x ∧
        (mapGet s.cache x = some p.2 ∨
          (isEthereumAddress x = true ∧ p.2 = addrResult x) ∨
          p.2 = unresolvedResult) := by
  unfold scanStep
  split
  · rename_i v heq
    refine ⟨[(x, v)], rfl, ?_⟩
    intro p hp
    rw [List.mem_singleton] at hp
    subst hp
    exact ⟨rfl, Or.inl heq⟩
  · split
    · rename_i hEth
      refine ⟨[(x, addrResult x)], rfl, ?_⟩
      intro p hp
      rw [List.mem_singleton] at hp
      subst hp
      exact ⟨rfl, Or.inr (Or.inl ⟨hEth, rfl⟩)⟩
    · split
      · exact ⟨[], rfl, by simp⟩
      · refine ⟨[(x, unresolvedResult)], rfl, ?_⟩
        intro p hp
        rw [List.mem_singleton] at hp
        subst hp
        exact ⟨rfl, Or.inr (Or.inr rfl)⟩

theorem scanStep_cache_writes (s : ScanState) (x : String) :
    ∃ w, (scanStep s x).cache = w ++ s.cache ∧
      ∀ p ∈ w, (isEthereumAddress p.1 = true ∧ p.2 = addrResult p.1) ∨
        p.2 = unresolvedResult := by
  unfold scanStep
  split
  · exact ⟨[], rfl, by simp⟩
  · split
    · rename_i hEth
      refine ⟨[(x, addrResult x)], rfl, ?_⟩
      intro p hp
      rw [List.mem_singleton] at hp
      subst hp
      exact Or.inl ⟨hEth, rfl⟩
    · split
      · exact ⟨[], rfl, by simp⟩
      · refine ⟨[(x, unresolvedResult)], rfl, ?_⟩
        intro p hp
        rw [List.mem_singleton] at hp
        subst hp
        exact Or.inr rfl

theorem scan_names (cache0 : Cache) :
    ∀ (todo : List String) (s : ScanState), todo.Nodup →
      (∀ x ∈ todo, mapGet s.cache x = mapGet cache0 x) →
      (todo.foldl scanStep s).namesToResolve =
        s.namesToResolve ++ todo.filter (queuedPred cache0) := by
  intro todo
  induction todo with
  | nil => intro s _ _; simp
  | cons x xs ih =>
    intro s hnd hfresh
    have hx : mapGet s.cache x = mapGet cache0 x :=
      hfresh x (List.mem_cons_self x xs)
    have hnd2 := List.nodup_cons.mp hnd
    have hfresh2 : ∀ y ∈ xs, mapGet (scanStep s x).cache y = mapGet cache0 y := by
      intro y hy
      rw [scanStep_cache_ne s x y (fun he => hnd2.1 (he ▸ hy))]
      exact hfresh y (List.mem_cons_of_mem _ hy)
    rw [List.foldl_cons, ih (scanStep s x) hnd2.2 hfresh2, scanStep_names,
      List.filter_cons]
    by_cases hq : queuedPred cache0 x = true
    · rw [if_pos hq, if_pos (by unfold queuedPred at hq ⊢; rw [hx]; exact hq)]
      simp
    · rw [if_neg hq, if_neg (by unfold queuedPred at hq ⊢; rw [hx]; exact hq)]

theorem scan_resolved (cache0 : Cache) :
    ∀ (todo : List String) (s : ScanState), todo.Nodup →
      (∀ x ∈ todo, mapGet s.cache x = mapGet cache0 x) →
      ∃ ws, (todo.foldl scanStep s).resolvedResults = ws ++ s.resolvedResults ∧
        ∀ p ∈ ws, mapGet cache0 p.1 = some p.2 ∨
          (isEthereumAddress p.1 = true ∧ p.2 = addrResult p.1) ∨
          p.2 = unresolvedResult := by
  intro todo
  induction todo with
  | nil => exact fun s _ _ => ⟨[], by simp, by simp⟩
  | cons x xs ih =>
    intro s hnd hfresh
    have hx : mapGet s.cache x = mapGet cache0 x :=
      hfresh x (List.mem_cons_self x xs)
    have hnd2 := List.nodup_cons.mp hnd
    have hfresh2 : ∀ y ∈ xs, mapGet (scanStep s x).cache y = mapGet cache0 y := by
      intro y hy
      rw [scanStep_cache_ne s x y (fun he => hnd2.1 (he ▸ hy))]
      exact hfresh y (List.mem_cons_of_mem _ hy)
    obtain ⟨w, hw, hwp⟩ := scanStep_resolved s x
    obtain ⟨ws, hws, hwsp⟩ := ih (scanStep s x) hnd2.2 hfresh2
    refine ⟨ws ++ w, by rw [List.foldl_cons, hws, hw, List.append_assoc], ?_⟩
    intro p hp
    rcases List.mem_append.mp hp with hp | hp
    · exact hwsp p hp
    · obtain ⟨hkey, hval⟩ := hwp p hp
      rcases hval with hv | hv | hv
      · exact Or.inl (by rw [hkey, ← hx]; exact hv)
      · exact Or.inr (Or.inl (by rw [hkey]; exact hv))
      · exact Or.inr (Or.inr hv)

theorem scan_cache_writes :
    ∀ (todo : List String) (s : ScanState),
      ∃ ws, (todo.foldl scanStep s).cache = ws ++ s.cache ∧
        ∀ p ∈ ws, (isEthereumAddress p.1 = true ∧ p.2 = addrResult p.1) ∨
          p.2 = unresolvedResult := by
  intro todo
  induction todo with
  | nil => exact fun s => ⟨[], by simp, by simp⟩
  | cons x xs ih =>
    intro s
    obtain ⟨w, hw, hwp⟩ := scanStep_cache_writes s x
    obtain ⟨ws, hws, hwsp⟩ := ih (scanStep s x)
    refine ⟨ws ++ w, by rw [List.foldl_cons, hws, hw, List.append_assoc], ?_⟩
    intro p hp
    rcases List.mem_append.mp hp with hp | hp
    · exact hwsp p hp
    · exact hwp p hp

theorem scanRun_names (cache : Cache) (inputs : List String) :
    (scanRun cache inputs).namesToResolve = queuedNames cache inputs := by
  unfold scanRun queuedNames
  rw [scan_names cache _ _ (nodup_uniqueFirst _) (fun x _ => rfl)]
  simp

theorem scanRun_resolved_provenance (cache : Cache) (inputs : List String)
    (k : String) (v : NameResolutionResult)
    (h : mapGet (scanRun cache inputs).resolvedResults k = some v) :
    mapGet cache k = some v ∨
      (isEthereumAddress k = true ∧ v = addrResult k) ∨ v = unresolvedResult := by
  obtain ⟨ws, hws, hwsp⟩ :=
    scan_resolved cache (uniqueFirst (inputs.map normalize)) ⟨[], [], [], cache⟩
      (nodup_uniqueFirst _) (fun x _ => rfl)
  unfold scanRun at h
  rw [hws, List.append_nil] at h
  have hmem := mapGet_some_mem _ _ _ h
  exact hwsp (k, v) hmem

theorem scanRun_cache_provenance (cache : Cache) (inputs : List String)
    (k : String) (v : NameResolutionResult)
    (h : mapGet (scanRun cache inputs).cache k = some v) :
    mapGet cache k = some v ∨
      (isEthereumAddress k = true ∧ v = addrResult k) ∨ v = unresolvedResult := by
  obtain ⟨ws, hws, hwsp⟩ :=
    scan_cache_writes (uniqueFirst (inputs.map normalize)) ⟨[], [], [], cache⟩
  unfold scanRun at h
  rw [hws] at h
  rw [mapGet_append] at h
  cases hget : mapGet ws k with
  | some w =>
    rw [hget] at h
    have hv : w = v := by simpa [Option.or] using h
    subst hv
    have hmem := mapGet_some_mem _ _ _ hget
    exact Or.inr (hwsp (k, w) hmem)
  | none =>
    rw [hget] at h
    exact Or.inl h

/- ### Merge lemmas -/

theorem foldl_mergeStep (entries : List (String × NameResolutionResult)) :
    ∀ a b, entries.foldl mergeStep (a, b) =
      (entries.reverse ++ a, entries.reverse ++ b) := by
  induction entries with
  | nil => intro a b; simp
  | cons e es ih =>
    intro a b
    rw [List.foldl_cons]
    show es.foldl mergeStep (mapSet a e.1 e.2, mapSet b e.1 e.2) = _
    rw [show mapSet a e.1 e.2 = e :: a from rfl, show mapSet b e.1 e.2 = e :: b from rfl,
      ih (e :: a) (e :: b)]
    simp

theorem mergeRun_eq (s : ScanState)
    (Ls : List (List (String × NameResolutionResult))) :
    mergeRun s Ls =
      (Ls.flatten.reverse ++ s.resolvedResults, Ls.flatten.reverse ++ s.cache) := by
  unfold mergeRun
  suffices h : ∀ (Ls : List (List (String × NameResolutionResult))) (a b : Cache),
      Ls.foldl (fun acc entries => entries.foldl mergeStep acc) (a, b) =
        (Ls.flatten.reverse ++ a, Ls.flatten.reverse ++ b) by
    exact h Ls s.resolvedResults s.cache
  intro Ls
  induction Ls with
  | nil => intro a b; simp
  | cons L Ls ih =>
    intro a b
    rw [List.foldl_cons]
    show Ls.foldl _ (L.foldl mergeStep (a, b)) = _
    rw [foldl_mergeStep L a b, ih]
    simp [List.append_assoc]

theorem resolveBatch_fst (o : Oracle) (names : List String) :
    (resolveBatchFromWeb3Bio o names).1 =
      names.map (fun n => (n, batchResultFor o names n)) := by
  unfold resolveBatchFromWeb3Bio
  by_cases h : names.isEmpty
  · rw [if_pos h]
    rw [List.isEmpty_iff.mp h]
    rfl
  · rw [if_neg h]

theorem resolveBatch_snd (o : Oracle) (names : List String) (h : names ≠ []) :
    (resolveBatchFromWeb3Bio o names).2 = [Req.batch names] := by
  unfold resolveBatchFromWeb3Bio
  rw [if_neg (by simpa [List.isEmpty_iff] using h)]

/- ### Characterization of a resolveNames run -/

theorem resolveNames_length (cfg : ResolverConfig) (o : Oracle) (cache : Cache)
    (inputs : List String) :
    (resolveNames cfg o cache inputs).1.length = inputs.length := by
  unfold resolveNames
  by_cases h : inputs.isEmpty
  · rw [if_pos h, List.isEmpty_iff.mp h]
    rfl
  · rw [if_neg h]
    simp

theorem runBatches_eq (cfg : ResolverConfig) (cache : Cache) (inputs : List String) :
    runBatches cfg cache inputs = chunks cfg.batchSize (queuedNames cache inputs) := by
  unfold runBatches
  rw [scanRun_names]

theorem nodup_queuedNames (cache : Cache) (inputs : List String) :
    (queuedNames cache inputs).Nodup :=
  (nodup_uniqueFirst _).filter _

theorem mem_runBatches_queuedPred (cfg : ResolverConfig) (cache : Cache)
    (inputs : List String) (b : List String) (x : String)
    (hb : b ∈ runBatches cfg cache inputs) (hx : x ∈ b) :
    queuedPred cache x = true ∧ x ∈ uniqueFirst (inputs.map normalize) := by
  rw [runBatches_eq] at hb
  have hmem : x ∈ queuedNames cache inputs := by
    have := chunks_mem_subset _ _ _ hb x hx
    exact this
  unfold queuedNames at hmem
  have := List.mem_filter.mp hmem
  exact ⟨this.2, this.1⟩

theorem lower_fix_of_mem_normalized (inputs : List String) (x : String)
    (hx : x ∈ uniqueFirst (inputs.map normalize)) : lower x = x := by
  rw [mem_uniqueFirst] at hx
  obtain ⟨t, _, rfl⟩ := List.mem_map.mp hx
  exact lower_normalize t

theorem runMerged_fst (cfg : ResolverConfig) (o : Oracle) (cache : Cache)
    (inputs : List String) :
    (runMerged cfg o cache inputs).1 =
      ((runBatches cfg cache inputs).map
        (fun b => (resolveBatchFromWeb3Bio o b).1)).flatten.reverse ++
        (scanRun cache inputs).resolvedResults := by
  unfold runMerged
  rw [mergeRun_eq]

theorem runMerged_snd (cfg : ResolverConfig) (o : Oracle) (cache : Cache)
    (inputs : List String) :
    (runMerged cfg o cache inputs).2 =
      ((runBatches cfg cache inputs).map
        (fun b => (resolveBatchFromWeb3Bio o b).1)).flatten.reverse ++
        (scanRun cache inputs).cache := by
  unfold runMerged
  rw [mergeRun_eq]

theorem allEnts_keys (cfg : ResolverConfig) (o : Oracle) (cache : Cache)
    (inputs : List String) :
    (((runBatches cfg cache inputs).map
      (fun b => (resolveBatchFromWeb3Bio o b).1)).flatten.map Prod.fst) =
      (runBatches cfg cache inputs).flatten := by
  rw [List.map_flatten, List.map_map]
  congr 1
  conv_rhs => rw [← List.map_id (runBatches cfg cache inputs)]
  apply List.map_congr_left
  intro b _
  show ((resolveBatchFromWeb3Bio o b).1).map Prod.fst = b
  rw [resolveBatch_fst, List.map_map]
  exact List.map_id _

theorem mem_allEnts (cfg : ResolverConfig) (o : Oracle) (cache : Cache)
    (inputs : List String) (b : List String) (x : String)
    (hb : b ∈ runBatches cfg cache inputs) (hx : x ∈ b) :
    (x, batchResultFor o b x) ∈
      ((runBatches cfg cache inputs).map
        (fun b => (resolveBatchFromWeb3Bio o b).1)).flatten := by
  rw [List.mem_flatten]
  refine ⟨(resolveBatchFromWeb3Bio o b).1, List.mem_map_of_mem _ hb, ?_⟩
  rw [resolveBatch_fst]
  exact List.mem_map_of_mem _ hx

theorem resolveNames_get (cfg : ResolverConfig) (o : Oracle) (cache : Cache)
    (inputs : List String) (i : Nat) (hi : i < inputs.length)
    (hj : i < (resolveNames cfg o cache inputs).1.length) :
    (resolveNames cfg o cache inputs).1.get ⟨i, hj⟩ =
      (mapGet (runMerged cfg o cache inputs).1
        (normalize (inputs.get ⟨i, hi⟩))).getD unresolvedResult := by
  have hne : ¬inputs.isEmpty = true := by
    cases inputs with
    | nil => simp at hi
    | cons a t => simp
  conv_lhs =>
    rw [List.get_of_eq (by unfold resolveNames; rw [if_neg hne])]
  rw [List.get_map, List.get_map]

theorem resolveNames_out_queued (cfg : ResolverConfig) (o : Oracle) (cache : Cache)
    (inputs : List String) (hbs : 0 < cfg.batchSize)
    (b : List String) (hb : b ∈ runBatches cfg cache inputs)
    (x : String) (hx : x ∈ b)
    (i : Nat) (hi : i < inputs.length)
    (hxi : normalize (inputs.get ⟨i, hi⟩) = x)
    (hj : i < (resolveNames cfg o cache inputs).1.length) :
    (resolveNames cfg o cache inputs).1.get ⟨i, hj⟩ = batchResultFor o b x := by
  rw [resolveNames_get cfg o cache inputs i hi hj, hxi, runMerged_fst, mapGet_append]
  have hkeys :
      ((((runBatches cfg cache inputs).map
        (fun b => (resolveBatchFromWeb3Bio o b).1)).flatten.reverse).map Prod.fst).Nodup := by
    rw [List.map_reverse, allEnts_keys, List.nodup_reverse]
    rw [runBatches_eq, chunks_flatten _ hbs]
    exact nodup_queuedNames cache inputs
  have hmem :
      (x, batchResultFor o b x) ∈
        ((runBatches cfg cache inputs).map
          (fun b => (resolveBatchFromWeb3Bio o b).1)).flatten.reverse := by
    rw [List.mem_reverse]
    exact mem_allEnts cfg o cache inputs b x hb hx
  rw [mapGet_of_nodup_keys _ _ _ hkeys hmem]
  rfl

theorem resolveNames_out_provenance (cfg : ResolverConfig) (o : Oracle)
    (cache : Cache) (inputs : List String) (i : Nat) (hi : i < inputs.length)
    (hj : i < (resolveNames cfg o cache inputs).1.length) :
    (resolveNames cfg o cache inputs).1.get ⟨i, hj⟩ = unresolvedResult ∨
    mapGet cache (normalize (inputs.get ⟨i, hi⟩)) =
      some ((resolveNames cfg o cache inputs).1.get ⟨i, hj⟩) ∨
    (isEthereumAddress (normalize (inputs.get ⟨i, hi⟩)) = true ∧
      (resolveNames cfg o cache inputs).1.get ⟨i, hj⟩ =
        addrResult (normalize (inputs.get ⟨i, hi⟩))) ∨
    (∃ b, b ∈ runBatches cfg cache inputs ∧ normalize (inputs.get ⟨i, hi⟩) ∈ b ∧
      (resolveNames cfg o cache inputs).1.get ⟨i, hj⟩ =
        batchResultFor o b (normalize (inputs.get ⟨i, hi⟩))) := by
  rw [resolveNames_get cfg o cache inputs i hi hj]
  rw [runMerged_fst, mapGet_append]
  cases hA : mapGet
      (((runBatches cfg cache inputs).map
        (fun b => (resolveBatchFromWeb3Bio o b).1)).flatten.reverse)
      (normalize (inputs.get ⟨i, hi⟩)) with
  | some v =>
    have hmem := mapGet_some_mem _ _ _ hA
    rw [List.mem_reverse, List.mem_flatten] at hmem
    obtain ⟨ents, hents, hpe⟩ := hmem
    obtain ⟨b, hb, rfl⟩ := List.mem_map.mp hents
    rw [resolveBatch_fst] at hpe
    obtain ⟨n, hn, heq⟩ := List.mem_map.mp hpe
    have hxn : n = normalize (inputs.get ⟨i, hi⟩) := congrArg Prod.fst heq
    have hv : batchResultFor o b n = v := congrArg Prod.snd heq
    refine Or.inr (Or.inr (Or.inr ⟨b, hb, hxn ▸ hn, ?_⟩))
    simp only [Option.or_some, Option.getD_some]
    rw [← hxn, hv]
  | none =>
    simp only [Option.none_or]
    cases hB : mapGet (scanRun cache inputs).resolvedResults
        (normalize (inputs.get ⟨i, hi⟩)) with
    | some v =>
      rcases scanRun_resolved_provenance cache inputs _ _ hB with h | h | h
      · exact Or.inr (Or.inl (by simpa using h))
      · exact Or.inr (Or.inr (Or.inl ⟨h.1, by simpa using h.2⟩))
      · exact Or.inl (by simpa using h)
    | none => exact Or.inl rfl

theorem batchResultFor_cases (o : Oracle) (b : List String) (n : String) :
    batchResultFor o b n = unresolvedResult ∨
    (∃ a, isEthereumAddress a = true ∧
      batchResultFor o b n =
        ⟨some a,
          some (if isBaseName (lower n) then Platform.basenames else Platform.ens),
          some (lower n)⟩) := by
  have hnone : o (Req.batch b) = none → batchResultFor o b n = unresolvedResult := by
    intro h
    unfold batchResultFor
    rw [h]
  have hsome : ∀ data, o (Req.batch b) = some data →
      batchResultFor o b n = batchEntryFor data n := by
    intro data h
    unfold batchResultFor
    rw [h]
  cases hO : o (Req.batch b) with
  | none => exact Or.inl (hnone hO)
  | some data =>
    cases hL : lookupIdentity data (lower n) with
    | none =>
      refine Or.inl ?_
      rw [hsome data hO]
      unfold batchEntryFor
      rw [hL]
    | some resp =>
      cases hA : resp.address with
      | none =>
        refine Or.inl ?_
        rw [hsome data hO]
        unfold batchEntryFor
        rw [hL]
        change (match resp.address with
          | some a =>
            if a != "" && isEthereumAddress a then
              (⟨some a,
                some (if isBaseName (lower n) then Platform.basenames else Platform.ens),
                some (lower n)⟩ : NameResolutionResult)
            else unresolvedResult
          | none => unresolvedResult) = _
        rw [hA]
      | some a =>
        have hval : batchResultFor o b n =
            (if a != "" && isEthereumAddress a then
              (⟨some a,
                some (if isBaseName (lower n) then Platform.basenames else Platform.ens),
                some (lower n)⟩ : NameResolutionResult)
            else unresolvedResult) := by
          rw [hsome data hO]
          unfold batchEntryFor
          rw [hL]
          change (match resp.address with
            | some a =>
              if a != "" && isEthereumAddress a then
                (⟨some a,
                  some (if isBaseName (lower n) then Platform.basenames else Platform.ens),
                  some (lower n)⟩ : NameResolutionResult)
              else unresolvedResult
            | none => unresolvedResult) = _
          rw [hA]
        rw [hval]
        by_cases ha : (a != "" && isEthereumAddress a) = true
        · refine Or.inr ⟨a, ?_, ?_⟩
          · cases hca : isEthereumAddress a
            · rw [hca, Bool.and_false] at ha
              cases ha
            · rfl
          · rw [if_pos ha]
        · rw [if_neg ha]
          exact Or.inl rfl

/- ### Case equations for resolveName -/

theorem resolveName_cached (o : Oracle) (cache : Cache) (input : String)
    (v : NameResolutionResult) (h : mapGet cache (normalize input) = some v) :
    resolveName o cache input = (v, cache, []) := by
  unfold resolveName
  split
  · rename_i w hw
    rw [h] at hw
    cases hw
    rfl
  · rename_i hw
    rw [h] at hw
    cases hw

theorem resolveName_addrCase (o : Oracle) (cache : Cache) (input : String)
    (h : mapGet cache (normalize input) = none)
    (ha : isEthereumAddress (normalize input) = true) :
    resolveName o cache input =
      (addrResult (normalize input),
        mapSet cache (normalize input) (addrResult (normalize input)), []) := by
  unfold resolveName
  split
  · rename_i w hw
    rw [h] at hw
    cases hw
  · rw [if_pos ha]

theorem resolveName_baseCase (o : Oracle) (cache : Cache) (input : String)
    (h : mapGet cache (normalize input) = none)
    (ha : isEthereumAddress (normalize input) = false)
    (hb : isBaseName (normalize input) = true) :
    resolveName o cache input =
      (nameLookupResult (resolveBaseName o (normalize input)).1 Platform.basenames
          (normalize input),
        mapSet cache (normalize input)
          (nameLookupResult (resolveBaseName o (normalize input)).1 Platform.basenames
            (normalize input)),
        (resolveBaseName o (normalize input)).2) := by
  unfold resolveName
  split
  · rename_i w hw
    rw [h] at hw
    cases hw
  · rw [if_neg (by rw [ha]; exact Bool.false_ne_true), if_pos hb]

theorem resolveName_ensCase (o : Oracle) (cache : Cache) (input : String)
    (h : mapGet cache (normalize input) = none)
    (ha : isEthereumAddress (normalize input) = false)
    (hb : isBaseName (normalize input) = false)
    (he : isEnsName (normalize input) = true) :
    resolveName o cache input =
      (nameLookupResult (resolveEnsName o (normalize input)).1 Platform.ens
          (normalize input),
        mapSet cache (normalize input)
          (nameLookupResult (resolveEnsName o (normalize input)).1 Platform.ens
            (normalize input)),
        (resolveEnsName o (normalize input)).2) := by
  unfold resolveName
  split
  · rename_i w hw
    rw [h] at hw
    cases hw
  · rw [if_neg (by rw [ha]; exact Bool.false_ne_true),
      if_neg (by rw [hb]; exact Bool.false_ne_true), if_pos he]

theorem resolveName_invalidCase (o : Oracle) (cache : Cache) (input : String)
    (h : mapGet cache (normalize input) = none)
    (ha : isEthereumAddress (normalize input) = false)
    (hb : isBaseName (normalize input) = false)
    (he : isEnsName (normalize input) = false) :
    resolveName o cache input =
      (unresolvedResult, mapSet cache (normalize input) unresolvedResult, []) := by
  unfold resolveName
  split
  · rename_i w hw
    rw [h] at hw
    cases hw
  · rw [if_neg (by rw [ha]; exact Bool.false_ne_true),
      if_neg (by rw [hb]; exact Bool.false_ne_true),
      if_neg (by rw [he]; exact Bool.false_ne_true)]

theorem fetchSingleAddress_snd (o : Oracle) (name : String) :
    (fetchSingleAddress o name).2 = [Req.single name] := rfl

theorem fetchSingleAddress_fail (o : Oracle) (name : String)
    (h : o (Req.single name) = none) : (fetchSingleAddress o name).1 = none := by
  unfold fetchSingleAddress
  rw [h]

theorem nameLookupResult_none (p : Platform) (cleanInput : String) :
    nameLookupResult none p cleanInput = unresolvedResult := rfl

/- ### Classifier lemmas -/

theorem eth_no_dot (s : String) (h : isEthereumAddress s = true) :
    ('.' : Char) ∉ s.data := by
  unfold isEthereumAddress at h
  simp only [Bool.and_eq_true] at h
  intro hdot
  have htd := List.take_append_drop 2 s.data
  rcases List.mem_append.mp (by rw [htd]; exact hdot) with hm | hm
  · have h2 : s.data.take 2 = ['0', 'x'] := by
      have := h.1.2
      simpa using this
    rw [h2] at hm
    simp at hm
  · have hall := List.all_eq_true.mp h.2 _ hm
    simp [isHexDigit] at hall

theorem name_not_address (s : String)
    (h : (isBaseName s || isEnsName s) = true) : isEthereumAddress s = false := by
  have hdot : ('.' : Char) ∈ s.data := by
    have hor : isBaseName s = true ∨ isEnsName s = true := by simpa using h
    rcases hor with hb | he
    · unfold isBaseName jsEndsWith at hb
      obtain ⟨t, ht⟩ := List.isSuffixOf_iff_suffix.mp hb
      rw [← ht]
      exact List.mem_append.mpr (Or.inr (by decide))
    · unfold isEnsName jsEndsWith at he
      simp only [Bool.and_eq_true] at he
      obtain ⟨t, ht⟩ := List.isSuffixOf_iff_suffix.mp he.1
      rw [← ht]
      exact List.mem_append.mpr (Or.inr (by decide))
  cases hE : isEthereumAddress s
  · rfl
  · exact absurd hdot (eth_no_dot s hE)

theorem queuedPred_spec (cache : Cache) (x : String)
    (h : queuedPred cache x = true) :
    mapGet cache x = none ∧ isEthereumAddress x = false ∧
      (isEnsName x || isBaseName x) = true := by
  unfold queuedPred at h
  simp only [Bool.and_eq_true] at h
  refine ⟨Option.isNone_iff_eq_none.mp h.1.1, ?_, h.2⟩
  have := h.1.2
  simpa using this

theorem fetchSingleAddress_valid (o : Oracle) (name : String) (a : String)
    (h : (fetchSingleAddress o name).1 = some a) : isEthereumAddress a = true := by
  unfold fetchSingleAddress at h
  cases hO : o (Req.single name) with
  | none =>
    rw [hO] at h
    exact Option.noConfusion h
  | some data =>
    rw [hO] at h
    change (match data.head? with
      | some item =>
        match item.address with
        | some a => if a != "" then (if isEthereumAddress a then some a else none) else none
        | none => none
      | none => none) = some a at h
    cases hH : data.head? with
    | none =>
      rw [hH] at h
      exact Option.noConfusion h
    | some item =>
      rw [hH] at h
      change (match item.address with
        | some a => if a != "" then (if isEthereumAddress a then some a else none) else none
        | none => none) = some a at h
      cases hA : item.address with
      | none =>
        rw [hA] at h
        exact Option.noConfusion h
      | some b =>
        rw [hA] at h
        change (if b != "" then (if isEthereumAddress b then some b else none) else none)
          = some a at h
        by_cases h1 : (b != "") = true
        · rw [if_pos h1] at h
          by_cases h2 : isEthereumAddress b = true
          · rw [if_pos h2] at h
            cases h
            exact h2
          · rw [if_neg h2] at h
            exact Option.noConfusion h
        · rw [if_neg h1] at h
          exact Option.noConfusion h

/- ### Log characterization and further helpers -/

theorem resolveNames_log (cfg : ResolverConfig) (o : Oracle) (cache : Cache)
    (inputs : List String) (hbs : 0 < cfg.batchSize) :
    (resolveNames cfg o cache inputs).2.2 =
      (chunks cfg.batchSize (queuedNames cache inputs)).map Req.batch := by
  unfold resolveNames
  by_cases h : inputs.isEmpty
  · rw [if_pos h, List.isEmpty_iff.mp h]
    rfl
  · rw [if_neg h]
    show ((runBatches cfg cache inputs).map
      (fun b => (resolveBatchFromWeb3Bio o b).2)).flatten = _
    rw [List.map_congr_left
      (fun b hb => resolveBatch_snd o b
        (chunks_mem_ne_nil _ hbs _ b (by rwa [← runBatches_eq])))]
    rw [runBatches_eq]
    generalize chunks cfg.batchSize (queuedNames cache inputs) = L
    induction L with
    | nil => rfl
    | cons b L ih =>
      show Req.batch b :: (L.map (fun b => [Req.batch b])).flatten
        = Req.batch b :: L.map Req.batch
      rw [ih]

theorem requestedNames_batchMap (L : List (List String)) :
    requestedNames (L.map Req.batch) = L.flatten := by
  induction L with
  | nil => rfl
  | cons b L ih =>
    show b ++ requestedNames (L.map Req.batch) = b ++ L.flatten
    rw [ih]

theorem mem_allEnts_inv (cfg : ResolverConfig) (o : Oracle) (cache : Cache)
    (inputs : List String) (k : String) (v : NameResolutionResult)
    (h : (k, v) ∈ ((runBatches cfg cache inputs).map
      (fun b => (resolveBatchFromWeb3Bio o b).1)).flatten) :
    ∃ b, b ∈ runBatches cfg cache inputs ∧ k ∈ b ∧ v = batchResultFor o b k := by
  rw [List.mem_flatten] at h
  obtain ⟨ents, hents, hpe⟩ := h
  obtain ⟨b, hb, rfl⟩ := List.mem_map.mp hents
  rw [resolveBatch_fst] at hpe
  obtain ⟨n, hn, heq⟩ := List.mem_map.mp hpe
  have h1 : n = k := congrArg Prod.fst heq
  have h2 : batchResultFor o b n = v := congrArg Prod.snd heq
  subst h1
  exact ⟨b, hb, hn, h2.symm⟩

theorem resOK_unresolved : resOK unresolvedResult := rfl

theorem resOK_addrResult (a : String) : resOK (addrResult a) := rfl

theorem resOK_nameLookupResult (address : Option String) (p : Platform)
    (cleanInput : String) : resOK (nameLookupResult address p cleanInput) := by
  cases address <;> rfl

theorem resOK_batchResultFor (o : Oracle) (b : List String) (n : String) :
    resOK (batchResultFor o b n) := by
  rcases batchResultFor_cases o b n with h | ⟨a, _, h⟩ <;> rw [h] <;> rfl

theorem mapGet_set_cases (m : Cache) (key k : String)
    (v w : NameResolutionResult) (h : mapGet (mapSet m key w) k = some v) :
    (k = key ∧ v = w) ∨ mapGet m k = some v := by
  by_cases hkk : k = key
  · subst hkk
    rw [mapGet_set_self] at h
    cases h
    exact Or.inl ⟨rfl, rfl⟩
  · rw [mapGet_set_ne _ _ _ _ hkk] at h
    exact Or.inr h

theorem displayOK_unresolved (k : String) : displayOK k unresolvedResult := by
  simp [displayOK, unresolvedResult]

theorem displayOK_addrResult (k : String) (ha : isEthereumAddress k = true) :
    displayOK k (addrResult k) := by
  simp [displayOK, addrResult, ha]

theorem displayOK_nameLookupResult (address : Option String) (p : Platform)
    (k : String) (ha : isEthereumAddress k = false) :
    displayOK k (nameLookupResult address p k) := by
  cases address <;> simp [displayOK, nameLookupResult, ha]

/- ### Claim theorems -/

/-- C1: for every input whose trimmed, lowercased form matches `0x`
followed by 40 hex digits, `resolveName` returns the record with that
normalized form as address, platform `ethereum`, no display name
(`addrResult`), and issues no upstream request.  The hypothesis `hcache`
pins down cache entries stored under address keys; it holds of the empty
cache and of every cache the module itself populates. -/
theorem resolveName_address_direct (o : Oracle) (cache : Cache) (input : String)
    (hcache : ∀ k v, mapGet cache k = some v → isEthereumAddress k = true →
      v = addrResult k)
    (ha : isEthereumAddress (normalize input) = true) :
    (resolveName o cache input).1 = addrResult (normalize input) ∧
    (resolveName o cache input).2.2 = [] := by
  cases h : mapGet cache (normalize input) with
  | some v =>
    rw [resolveName_cached o cache input v h]
    exact ⟨hcache _ _ h ha, rfl⟩
  | none =>
    rw [resolveName_addrCase o cache input h ha]
    exact ⟨rfl, rfl⟩

/-- Witness for C1 at the spec's own example input (section 8, line 81),
with the empty cache and an oracle that always fails. -/
theorem resolveName_address_direct_witness :
    (resolveName (fun _ => none) []
        "  0xABCDEF1234567890ABCDEF1234567890ABCDEF12  ").1 =
      addrResult (normalize "  0xABCDEF1234567890ABCDEF1234567890ABCDEF12  ") ∧
    (resolveName (fun _ => none) []
        "  0xABCDEF1234567890ABCDEF1234567890ABCDEF12  ").2.2 = [] :=
  resolveName_address_direct (fun _ => none) [] _
    (fun _ _ h => Option.noConfusion h) (by decide)

/-- C9: two consecutive `resolveName` calls on the same input (no
intervening eviction; the embedded cache does not expire entries) return
equal results and issue at most one upstream request in total — the second
call always hits the cache the first call populated. -/
theorem resolveName_idempotent (o : Oracle) (cache : Cache) (input : String) :
    (resolveName o (resolveName o cache input).2.1 input).1 =
      (resolveName o cache input).1 ∧
    (resolveName o cache input).2.2.length +
      (resolveName o (resolveName o cache input).2.1 input).2.2.length ≤ 1 := by
  cases h : mapGet cache (normalize input) with
  | some v =>
    have h1 := resolveName_cached o cache input v h
    rw [h1]
    dsimp only
    rw [h1]
    exact ⟨rfl, by simp⟩
  | none =>
    cases ha : isEthereumAddress (normalize input) with
    | true =>
      have h1 := resolveName_addrCase o cache input h ha
      rw [h1]
      dsimp only
      rw [resolveName_cached o _ input _ (mapGet_set_self _ _ _)]
      exact ⟨rfl, by simp⟩
    | false =>
      cases hb : isBaseName (normalize input) with
      | true =>
        have h1 := resolveName_baseCase o cache input h ha hb
        rw [h1]
        dsimp only
        rw [resolveName_cached o _ input _ (mapGet_set_self _ _ _)]
        exact ⟨rfl, by rw [show (resolveBaseName o (normalize input)).2
          = [Req.single (normalize input)] from rfl]; simp⟩
      | false =>
        cases he : isEnsName (normalize input) with
        | true =>
          have h1 := resolveName_ensCase o cache input h ha hb he
          rw [h1]
          dsimp only
          rw [resolveName_cached o _ input _ (mapGet_set_self _ _ _)]
          exact ⟨rfl, by rw [show (resolveEnsName o (normalize input)).2
            = [Req.single (normalize input)] from rfl]; simp⟩
        | false =>
          have h1 := resolveName_invalidCase o cache input h ha hb he
          rw [h1]
          dsimp only
          rw [resolveName_cached o _ input _ (mapGet_set_self _ _ _)]
          exact ⟨rfl, by simp⟩

/-- C10: `resolveNames` on the empty list returns the empty list, issues
no upstream call and leaves the cache untouched (the configuration is
read-only throughout `resolveNames`). -/
theorem resolveNames_nil (cfg : ResolverConfig) (o : Oracle) (cache : Cache) :
    resolveNames cfg o cache [] = ([], cache, []) := rfl

/-- C2: `resolveNames` returns one result per input, in order; positions
whose inputs normalize to the same string receive equal results; and no
identifier is requested upstream twice (the names across all issued batch
requests are pairwise distinct).  `batchSize` is assumed positive, as the
spec requires (the source loop would not terminate otherwise). -/
theorem resolveNames_length_order_dedup (cfg : ResolverConfig) (o : Oracle)
    (cache : Cache) (inputs : List String) (hbs : 0 < cfg.batchSize) :
    (resolveNames cfg o cache inputs).1.length = inputs.length ∧
    (∀ i j (hi : i < inputs.length) (hj : j < inputs.length)
      (hi2 : i < (resolveNames cfg o cache inputs).1.length)
      (hj2 : j < (resolveNames cfg o cache inputs).1.length),
      normalize (inputs.get ⟨i, hi⟩) = normalize (inputs.get ⟨j, hj⟩) →
      (resolveNames cfg o cache inputs).1.get ⟨i, hi2⟩ =
        (resolveNames cfg o cache inputs).1.get ⟨j, hj2⟩) ∧
    (requestedNames (resolveNames cfg o cache inputs).2.2).Nodup := by
  refine ⟨resolveNames_length cfg o cache inputs, ?_, ?_⟩
  · intro i j hi hj hi2 hj2 hnorm
    rw [resolveNames_get cfg o cache inputs i hi hi2,
      resolveNames_get cfg o cache inputs j hj hj2, hnorm]
  · rw [resolveNames_log cfg o cache inputs hbs, requestedNames_batchMap,
      chunks_flatten _ hbs]
    exact nodup_queuedNames cache inputs

/-- Witness for C2: three inputs with a duplicate, resolved through one
batch; both duplicate positions hold the same record. -/
theorem resolveNames_length_order_dedup_witness :
    (0 : Nat) < DEFAULT_CONFIG.batchSize ∧
    (resolveNames DEFAULT_CONFIG (fun _ => none) []
      ["a.eth", "b.eth", "a.eth"]).1.length = 3 ∧
    (resolveNames DEFAULT_CONFIG (fun _ => none) []
        ["a.eth", "b.eth", "a.eth"]).1.get ⟨0, by decide⟩ =
      (resolveNames DEFAULT_CONFIG (fun _ => none) []
        ["a.eth", "b.eth", "a.eth"]).1.get ⟨2, by decide⟩ ∧
    (requestedNames (resolveNames DEFAULT_CONFIG (fun _ => none) []
      ["a.eth", "b.eth", "a.eth"]).2.2).Nodup := by
  have h := resolveNames_length_order_dedup DEFAULT_CONFIG (fun _ => none) []
    ["a.eth", "b.eth", "a.eth"] (by decide)
  refine ⟨by decide, h.1, ?_, h.2.2⟩
  exact h.2.1 0 2 (by decide) (by decide) (by rw [h.1]; decide) (by rw [h.1]; decide)
    (by decide)

/-- C3: with a positive `batchSize`, the upstream calls of a
`resolveNames` run are exactly one batch request per chunk of the
queued-name list (the unique normalized uncached ENS/Base names); there
are `ceil(k / batchSize)` of them, the chunks are consecutive, each has at
most `batchSize` names, and their concatenation is the queued list. -/
theorem resolveNames_batch_partition (cfg : ResolverConfig) (o : Oracle)
    (cache : Cache) (inputs : List String) (hbs : 0 < cfg.batchSize) :
    (resolveNames cfg o cache inputs).2.2 =
      (chunks cfg.batchSize (queuedNames cache inputs)).map Req.batch ∧
    (resolveNames cfg o cache inputs).2.2.length =
      ((queuedNames cache inputs).length + cfg.batchSize - 1) / cfg.batchSize ∧
    (chunks cfg.batchSize (queuedNames cache inputs)).flatten =
      queuedNames cache inputs ∧
    (∀ b ∈ chunks cfg.batchSize (queuedNames cache inputs),
      b.length ≤ cfg.batchSize) := by
  refine ⟨resolveNames_log cfg o cache inputs hbs, ?_,
    chunks_flatten _ hbs _, fun b hb => chunks_mem_length _ _ b hb⟩
  rw [resolveNames_log cfg o cache inputs hbs, List.length_map,
    chunks_length _ hbs]

/-- Witness for C3: batch size 2 over three queued names gives exactly
two batch calls, `[a.eth, b.eth]` then `[c.eth]`. -/
theorem resolveNames_batch_partition_witness :
    (resolveNames ⟨"", 2, 1000, 900000⟩ (fun _ => none) []
      ["a.eth", "b.eth", "c.eth"]).2.2 =
      (chunks 2 (queuedNames [] ["a.eth", "b.eth", "c.eth"])).map Req.batch ∧
    (resolveNames ⟨"", 2, 1000, 900000⟩ (fun _ => none) []
      ["a.eth", "b.eth", "c.eth"]).2.2.length = 2 := by
  have h := resolveNames_batch_partition ⟨"", 2, 1000, 900000⟩ (fun _ => none) []
    ["a.eth", "b.eth", "c.eth"] (by decide)
  refine ⟨h.1, ?_⟩
  rw [h.2.1]
  decide

/-- C4: every upstream failure mode (the oracle answering `none`, which is
how `fetchFromWeb3Bio` collapses transport errors, non-success statuses
and unparsable bodies) degrades to the all-absent record.  For
`resolveName`, a failing single fetch on an uncached ENS or Base name
yields `unresolvedResult`; for `resolveNames`, a failing batch marks every
name of that chunk (hence every input position resolving to it)
`unresolvedResult`, the other chunks being separate requests.  Both
functions are total, so no exception escapes. -/
theorem upstream_failure_confirmed_unresolved (o : Oracle) (cache : Cache)
    (input : String) (cfg : ResolverConfig) (inputs : List String)
    (hbs : 0 < cfg.batchSize) :
    ((isBaseName (normalize input) || isEnsName (normalize input)) = true →
      mapGet cache (normalize input) = none →
      o (Req.single (normalize input)) = none →
      (resolveName o cache input).1 = unresolvedResult) ∧
    (∀ b, b ∈ chunks cfg.batchSize (queuedNames cache inputs) →
      o (Req.batch b) = none →
      ∀ x ∈ b, ∀ i (hi : i < inputs.length)
        (hj : i < (resolveNames cfg o cache inputs).1.length),
        normalize (inputs.get ⟨i, hi⟩) = x →
        (resolveNames cfg o cache inputs).1.get ⟨i, hj⟩ = unresolvedResult) := by
  constructor
  · intro hclass hcache hfail
    have hEth : isEthereumAddress (normalize input) = false :=
      name_not_address _ hclass
    cases hb : isBaseName (normalize input) with
    | true =>
      rw [resolveName_baseCase o cache input hcache hEth hb]
      dsimp only
      rw [show (resolveBaseName o (normalize input)).1 = none from
        fetchSingleAddress_fail o _ hfail]
      rfl
    | false =>
      have he : isEnsName (normalize input) = true := by
        rw [hb] at hclass
        simpa using hclass
      rw [resolveName_ensCase o cache input hcache hEth hb he]
      dsimp only
      rw [show (resolveEnsName o (normalize input)).1 = none from
        fetchSingleAddress_fail o _ hfail]
      rfl
  · intro b hb hfail x hx i hi hj hxi
    rw [resolveNames_out_queued cfg o cache inputs hbs b
      (by rwa [runBatches_eq]) x hx i hi hxi hj]
    unfold batchResultFor
    rw [hfail]

/-- Witness for C4: an always-failing oracle on a Base name (single) and
on a one-chunk batch; both positions come back all-absent. -/
theorem upstream_failure_confirmed_unresolved_witness :
    (resolveName (fun _ => none) [] "ghost.base.eth").1 = unresolvedResult ∧
    (resolveNames DEFAULT_CONFIG (fun _ => none) []
      ["a.eth", "b.eth"]).1.get ⟨1, by decide⟩ = unresolvedResult := by
  have h := upstream_failure_confirmed_unresolved (fun _ => none) []
    "ghost.base.eth" DEFAULT_CONFIG ["a.eth", "b.eth"] (by decide)
  refine ⟨h.1 (by decide) rfl rfl, ?_⟩
  exact h.2 ["a.eth", "b.eth"] (by decide) rfl "b.eth" (by decide) 1 (by decide)
    (by decide) (by decide)

/-- C5: `address` is present exactly when `platform` is present, in every
record `resolveName` or `resolveNames` returns and in every record held by
the cache they leave behind, provided every record of the starting cache
satisfies the invariant (the empty cache does vacuously). -/
theorem address_platform_invariant (o : Oracle) (cache : Cache) (input : String)
    (cfg : ResolverConfig) (inputs : List String)
    (hcache : ∀ k v, mapGet cache k = some v → resOK v) :
    resOK (resolveName o cache input).1 ∧
    (∀ k v, mapGet (resolveName o cache input).2.1 k = some v → resOK v) ∧
    (∀ i (hi : i < inputs.length)
      (hj : i < (resolveNames cfg o cache inputs).1.length),
      resOK ((resolveNames cfg o cache inputs).1.get ⟨i, hj⟩)) ∧
    (∀ k v, mapGet (resolveNames cfg o cache inputs).2.1 k = some v → resOK v) := by
  have hname : resOK (resolveName o cache input).1 ∧
      ∀ k v, mapGet (resolveName o cache input).2.1 k = some v → resOK v := by
    cases h : mapGet cache (normalize input) with
    | some v =>
      rw [resolveName_cached o cache input v h]
      exact ⟨hcache _ _ h, hcache⟩
    | none =>
      cases ha : isEthereumAddress (normalize input) with
      | true =>
        rw [resolveName_addrCase o cache input h ha]
        refine ⟨resOK_addrResult _, fun k v hk => ?_⟩
        rcases mapGet_set_cases _ _ _ _ _ hk with ⟨_, rfl⟩ | hk
        · exact resOK_addrResult _
        · exact hcache _ _ hk
      | false =>
        cases hb : isBaseName (normalize input) with
        | true =>
          rw [resolveName_baseCase o cache input h ha hb]
          refine ⟨resOK_nameLookupResult _ _ _, fun k v hk => ?_⟩
          rcases mapGet_set_cases _ _ _ _ _ hk with ⟨_, rfl⟩ | hk
          · exact resOK_nameLookupResult _ _ _
          · exact hcache _ _ hk
        | false =>
          cases he : isEnsName (normalize input) with
          | true =>
            rw [resolveName_ensCase o cache input h ha hb he]
            refine ⟨resOK_nameLookupResult _ _ _, fun k v hk => ?_⟩
            rcases mapGet_set_cases _ _ _ _ _ hk with ⟨_, rfl⟩ | hk
            · exact resOK_nameLookupResult _ _ _
            · exact hcache _ _ hk
          | false =>
            rw [resolveName_invalidCase o cache input h ha hb he]
            refine ⟨resOK_unresolved, fun k v hk => ?_⟩
            rcases mapGet_set_cases _ _ _ _ _ hk with ⟨_, rfl⟩ | hk
            · exact resOK_unresolved
            · exact hcache _ _ hk
  refine ⟨hname.1, hname.2, ?_, ?_⟩
  · intro i hi hj
    rcases resolveNames_out_provenance cfg o cache inputs i hi hj with
      h | h | h | ⟨b, hb, hxb, h⟩
    · rw [h]; exact resOK_unresolved
    · exact hcache _ _ h
    · rw [h.2]; exact resOK_addrResult _
    · rw [h]; exact resOK_batchResultFor o b _
  · intro k v hk
    by_cases hne : inputs.isEmpty
    · rw [show resolveNames cfg o cache inputs = ([], cache, []) by
        unfold resolveNames; rw [if_pos hne]] at hk
      exact hcache _ _ hk
    · rw [show (resolveNames cfg o cache inputs).2.1 =
          (runMerged cfg o cache inputs).2 by
        unfold resolveNames; rw [if_neg hne]] at hk
      rw [runMerged_snd, mapGet_append] at hk
      cases hA : mapGet (((runBatches cfg cache inputs).map
          (fun b => (resolveBatchFromWeb3Bio o b).1)).flatten.reverse) k with
      | some w =>
        rw [hA] at hk
        have hw : w = v := by simpa [Option.or] using hk
        subst hw
        have hmem := mapGet_some_mem _ _ _ hA
        rw [List.mem_reverse] at hmem
        obtain ⟨b, hb, hkb, hv⟩ := mem_allEnts_inv cfg o cache inputs k w hmem
        rw [hv]
        exact resOK_batchResultFor o b _
      | none =>
        rw [hA] at hk
        simp only [Option.none_or] at hk
        rcases scanRun_cache_provenance cache inputs k v hk with h | h | h
        · exact hcache _ _ h
        · rw [h.2]; exact resOK_addrResult _
        · rw [h]; exact resOK_unresolved

/-- Witness for C5 on the empty cache: an unresolvable single name and a
one-element bulk call. -/
theorem address_platform_invariant_witness :
    resOK (resolveName (fun _ => none) [] "x.eth").1 ∧
    resOK ((resolveNames DEFAULT_CONFIG (fun _ => none) []
      ["x.eth"]).1.get ⟨0, by decide⟩) := by
  have h := address_platform_invariant (fun _ => none) [] "x.eth"
    DEFAULT_CONFIG ["x.eth"] (fun _ _ hk => Option.noConfusion hk)
  exact ⟨h.1, h.2.2.1 0 (by decide) (by decide)⟩

/-- C6: `displayName` is the normalized input exactly when resolution
succeeded through a name lookup, and absent otherwise — in particular
absent when the input is itself a raw address — for `resolveName` results
and for every position of a `resolveNames` result, given a cache whose
entries satisfy the same contract at their key (the empty cache does). -/
theorem displayName_contract (o : Oracle) (cache : Cache) (input : String)
    (cfg : ResolverConfig) (inputs : List String)
    (hcache : ∀ k v, mapGet cache k = some v → displayOK k v) :
    displayOK (normalize input) (resolveName o cache input).1 ∧
    (∀ i (hi : i < inputs.length)
      (hj : i < (resolveNames cfg o cache inputs).1.length),
      displayOK (normalize (inputs.get ⟨i, hi⟩))
        ((resolveNames cfg o cache inputs).1.get ⟨i, hj⟩)) := by
  constructor
  · cases h : mapGet cache (normalize input) with
    | some v =>
      rw [resolveName_cached o cache input v h]
      exact hcache _ _ h
    | none =>
      cases ha : isEthereumAddress (normalize input) with
      | true =>
        rw [resolveName_addrCase o cache input h ha]
        exact displayOK_addrResult _ ha
      | false =>
        cases hb : isBaseName (normalize input) with
        | true =>
          rw [resolveName_baseCase o cache input h ha hb]
          exact displayOK_nameLookupResult _ _ _ ha
        | false =>
          cases he : isEnsName (normalize input) with
          | true =>
            rw [resolveName_ensCase o cache input h ha hb he]
            exact displayOK_nameLookupResult _ _ _ ha
          | false =>
            rw [resolveName_invalidCase o cache input h ha hb he]
            exact displayOK_unresolved _
  · intro i hi hj
    rcases resolveNames_out_provenance cfg o cache inputs i hi hj with
      h | h | h | ⟨b, hb, hxb, h⟩
    · rw [h]; exact displayOK_unresolved _
    · exact hcache _ _ h
    · rw [h.2]; exact displayOK_addrResult _ h.1
    · obtain ⟨hqp, _⟩ := mem_runBatches_queuedPred cfg cache inputs b _ hb hxb
      obtain ⟨_, hEth, _⟩ := queuedPred_spec cache _ hqp
      have hlow := lower_normalize (inputs.get ⟨i, hi⟩)
      rcases batchResultFor_cases o b (normalize (inputs.get ⟨i, hi⟩)) with
        hbc | ⟨a, _, hbc⟩
      · rw [h, hbc]; exact displayOK_unresolved _
      · rw [h, hbc]
        simp only [displayOK, hlow, hEth]
        simp

/-- Witness for C6: a raw address input (absent displayName) and a bulk
call on a name that fails to resolve (absent displayName). -/
theorem displayName_contract_witness :
    displayOK (normalize "0x1234567890123456789012345678901234567890")
      (resolveName (fun _ => none) []
        "0x1234567890123456789012345678901234567890").1 ∧
    displayOK (normalize "a.eth")
      ((resolveNames DEFAULT_CONFIG (fun _ => none) []
        ["a.eth"]).1.get ⟨0, by decide⟩) := by
  have h := displayName_contract (fun _ => none) []
    "0x1234567890123456789012345678901234567890" DEFAULT_CONFIG ["a.eth"]
    (fun _ _ hk => Option.noConfusion hk)
  exact ⟨h.1, h.2 0 (by decide) (by decide)⟩

/-- A provider answer carrying a checksummed, mixed-case address (a valid
`0x` + 40 hex string that is not equal to its own lowercasing). -/
def mixedCaseAnswer : List Web3BioResponse :=
  [{ address := some "0xAAAAAAAAAAAAAAAAAAAAAAAAAAAAAAAAAAAAAAAA" }]

/-- C7, counterexample: the source stores the upstream-returned address
verbatim (only validated by `isEthereumAddress`, which accepts mixed
case); resolving `abc.base.eth` against a provider answering with a
40-`A` address returns that uppercase string, which is not
lowercase-normalized, refuting the claim as stated. -/
theorem upstream_casing_counterexample :
    (resolveName (fun _ => some mixedCaseAnswer)
      [] "abc.base.eth").1.address =
      some "0xAAAAAAAAAAAAAAAAAAAAAAAAAAAAAAAAAAAAAAAA" ∧
    lower "0xAAAAAAAAAAAAAAAAAAAAAAAAAAAAAAAAAAAAAAAA" ≠
      "0xAAAAAAAAAAAAAAAAAAAAAAAAAAAAAAAAAAAAAAAA" := by
  exact ⟨by decide, by decide⟩

/-- C7, amended: whenever a result of `resolveName` or `resolveNames`
carries an address, that address is a well-formed `0x`-prefixed
40-hex-digit string (it passed `isEthereumAddress`), but it keeps the
upstream casing; it is lowercase only when the input itself was a raw
address.  Hypothesis: the starting cache satisfies the same contract
(the empty cache does vacuously). -/
theorem address_wellformed (o : Oracle) (cache : Cache) (input : String)
    (cfg : ResolverConfig) (inputs : List String)
    (hcache : ∀ k v, mapGet cache k = some v → addrWellFormed v) :
    addrWellFormed (resolveName o cache input).1 ∧
    (∀ i (hi : i < inputs.length)
      (hj : i < (resolveNames cfg o cache inputs).1.length),
      addrWellFormed ((resolveNames cfg o cache inputs).1.get ⟨i, hj⟩)) := by
  constructor
  · cases h : mapGet cache (normalize input) with
    | some v =>
      rw [resolveName_cached o cache input v h]
      exact hcache _ _ h
    | none =>
      cases ha : isEthereumAddress (normalize input) with
      | true =>
        rw [resolveName_addrCase o cache input h ha]
        intro a hA
        cases hA
        exact ha
      | false =>
        cases hb : isBaseName (normalize input) with
        | true =>
          rw [resolveName_baseCase o cache input h ha hb]
          intro a hA
          exact fetchSingleAddress_valid o (normalize input) a hA
        | false =>
          cases he : isEnsName (normalize input) with
          | true =>
            rw [resolveName_ensCase o cache input h ha hb he]
            intro a hA
            exact fetchSingleAddress_valid o (normalize input) a hA
          | false =>
            rw [resolveName_invalidCase o cache input h ha hb he]
            intro a hA
            exact Option.noConfusion hA
  · intro i hi hj
    rcases resolveNames_out_provenance cfg o cache inputs i hi hj with
      h | h | h | ⟨b, hb, hxb, h⟩
    · rw [h]; intro a hA; exact Option.noConfusion hA
    · exact hcache _ _ h
    · rw [h.2]; intro a hA; cases hA; exact h.1
    · rcases batchResultFor_cases o b (normalize (inputs.get ⟨i, hi⟩)) with
        hbc | ⟨a, haa, hbc⟩
      · rw [h, hbc]; intro a hA; exact Option.noConfusion hA
      · rw [h, hbc]
        intro a0 hA
        cases hA
        exact haa

/-- Witness for C7's amended claim: the mixed-case upstream answer is
well-formed, and so is a raw-address bulk position. -/
theorem address_wellformed_witness :
    addrWellFormed (resolveName (fun _ => some mixedCaseAnswer)
      [] "abc.base.eth").1 ∧
    addrWellFormed ((resolveNames DEFAULT_CONFIG (fun _ => some mixedCaseAnswer)
      [] ["0x1234567890123456789012345678901234567890"]).1.get ⟨0, by decide⟩) := by
  have h := address_wellformed (fun _ => some mixedCaseAnswer)
    [] "abc.base.eth" DEFAULT_CONFIG
    ["0x1234567890123456789012345678901234567890"]
    (fun _ _ hk => Option.noConfusion hk)
  exact ⟨h.1, h.2 0 (by decide) (by decide)⟩

/-- C8: a configuration update keeps every field it does not supply and
takes every field it does; the cache is replaced by a fresh empty one
exactly when `cacheMaxSize` or `cacheTTL` is supplied, and is left
untouched when neither is. -/
theorem configureNameResolver_spec (st : ResolverState) (u : NameResolverConfig) :
    (u.web3BioApiKey = none →
      (configureNameResolver st u).config.web3BioApiKey =
        st.config.web3BioApiKey) ∧
    (∀ x, u.web3BioApiKey = some x →
      (configureNameResolver st u).config.web3BioApiKey = x) ∧
    (u.batchSize = none →
      (configureNameResolver st u).config.batchSize = st.config.batchSize) ∧
    (∀ x, u.batchSize = some x →
      (configureNameResolver st u).config.batchSize = x) ∧
    (u.cacheMaxSize = none →
      (configureNameResolver st u).config.cacheMaxSize =
        st.config.cacheMaxSize) ∧
    (∀ x, u.cacheMaxSize = some x →
      (configureNameResolver st u).config.cacheMaxSize = x) ∧
    (u.cacheTTL = none →
      (configureNameResolver st u).config.cacheTTL = st.config.cacheTTL) ∧
    (∀ x, u.cacheTTL = some x →
      (configureNameResolver st u).config.cacheTTL = x) ∧
    ((u.cacheMaxSize.isSome || u.cacheTTL.isSome) = true →
      (configureNameResolver st u).cache = []) ∧
    (u.cacheMaxSize = none → u.cacheTTL = none →
      (configureNameResolver st u).cache = st.cache) := by
  have hcfg : (configureNameResolver st u).config = mergeConfig st.config u := by
    unfold configureNameResolver
    by_cases h : (u.cacheMaxSize.isSome || u.cacheTTL.isSome) = true
    · rw [if_pos h]
    · rw [if_neg h]
  refine ⟨?_, ?_, ?_, ?_, ?_, ?_, ?_, ?_, ?_, ?_⟩
  · intro h; simp [hcfg, mergeConfig, h]
  · intro x h; simp [hcfg, mergeConfig, h]
  · intro h; simp [hcfg, mergeConfig, h]
  · intro x h; simp [hcfg, mergeConfig, h]
  · intro h; simp [hcfg, mergeConfig, h]
  · intro x h; simp [hcfg, mergeConfig, h]
  · intro h; simp [hcfg, mergeConfig, h]
  · intro x h; simp [hcfg, mergeConfig, h]
  · intro h
    unfold configureNameResolver
    rw [if_pos h]
  · intro h1 h2
    unfold configureNameResolver
    rw [if_neg (by simp [h1, h2])]

/-- Witness for C8: supplying `cacheTTL` empties a nonempty cache;
supplying only `batchSize` preserves it and the other fields. -/
theorem configureNameResolver_spec_witness :
    (configureNameResolver ⟨⟨"k", 3, 10, 5⟩, [("a.eth", unresolvedResult)]⟩
      { cacheTTL := some 7 }).cache = [] ∧
    (configureNameResolver ⟨⟨"k", 3, 10, 5⟩, [("a.eth", unresolvedResult)]⟩
      { batchSize := some 9 }).cache = [("a.eth", unresolvedResult)] ∧
    (configureNameResolver ⟨⟨"k", 3, 10, 5⟩, [("a.eth", unresolvedResult)]⟩
      { batchSize := some 9 }).config.batchSize = 9 ∧
    (configureNameResolver ⟨⟨"k", 3, 10, 5⟩, [("a.eth", unresolvedResult)]⟩
      { batchSize := some 9 }).config.web3BioApiKey = "k" := by
  have h1 := configureNameResolver_spec
    ⟨⟨"k", 3, 10, 5⟩, [("a.eth", unresolvedResult)]⟩ { cacheTTL := some 7 }
  have h2 := configureNameResolver_spec
    ⟨⟨"k", 3, 10, 5⟩, [("a.eth", unresolvedResult)]⟩ { batchSize := some 9 }
  refine ⟨h1.2.2.2.2.2.2.2.2.1 (by decide), h2.2.2.2.2.2.2.2.2.2 rfl rfl,
    h2.2.2.2.1 9 rfl, h2.1 rfl⟩

end NameResolver
